import Mathlib

/-!
Verification of the hashtag topic-mining Dataflow pipeline (the Go worker
holding `mapHashTagCount`, `HashTagGroup`, `clusterFn` and
`summaryHashTagsFn`).

Modelling conventions: `float32` values are embedded as exact rationals
(the claims under scrutiny are about the structure of the comparisons, not
floating-point rounding); `int64` counts are embedded as `Int`; the
fallible embedding RPC is a parameter returning `Except`; Beam bundle
semantics (an element error fails the whole bundle) is made explicit in
`processBundle`.
-/

namespace HashtagPipeline

/-- Constant `tagCountThreshold = 5` from the source. -/
def tagCountThreshold : Int := 5

/-- Constant `documentThreshold = 10` from the source. -/
def documentThreshold : Int := 10

/-- Constant `distanceThreshold = 0.85` from the source, as an exact rational. -/
def distanceThreshold : ℚ := 85 / 100

/-- `HashtagCount`: a tag string with its occurrence count and embedding vector. -/
structure HashtagCount where
  Hashtag : String
  Count : Int
  Vector : List ℚ
  deriving DecidableEq

/-- `distance(a, b)`: the raw dot product (the source sums `a[i]*b[i]` over the
indices of `a`; in the pipeline both vectors have the fixed model dimension,
modelled by `zipWith`). -/
def distance (a b : List ℚ) : ℚ :=
  (List.zipWith (fun x y => x * y) a b).sum

/-- `HashTagGroup`: one topic cluster, a designated centroid plus all members. -/
structure HashTagGroup where
  Centroid : HashtagCount
  Hashtags : List HashtagCount
  deriving DecidableEq

/-- `HashTagGroup.Merge`: keep the centroid with the strictly larger count
(the receiver wins only on strict `>`), concatenating the member lists onto
the winner. -/
def HashTagGroup.Merge (g other : HashTagGroup) : HashTagGroup :=
  if other.Centroid.Count < g.Centroid.Count then
    ⟨g.Centroid, g.Hashtags ++ other.Hashtags⟩
  else
    ⟨other.Centroid, other.Hashtags ++ g.Hashtags⟩

/-- `HashTagGroupAccumulator`: the running combiner state, a list of groups. -/
structure HashTagGroupAccumulator where
  Groups : List HashTagGroup
  deriving DecidableEq

/-- A throwaway default used with `List.getD`; the source indexes the slice
directly and every such access is in range (guarded by `findClosest`
reporting a match). -/
def dummyGroup : HashTagGroup := ⟨⟨"", 0, []⟩, []⟩

/-- The loop of `findClosest`, abstracted over the list of similarity scores:
`target` starts at 0, the running maximum starts at 0 (the Go zero value of
`float32`), and both are updated whenever the current score `d` satisfies
`d >= maxDistance`. -/
def lastArgMaxAux : List ℚ → Nat → Nat → ℚ → Nat × ℚ
  | [], _, t, m => (t, m)
  | d :: ds, i, t, m =>
    if m ≤ d then lastArgMaxAux ds (i + 1) i d
    else lastArgMaxAux ds (i + 1) t m

/-- The similarity scores `distance(group.Centroid.Vector, tag.Vector)` in
group order, as computed inside the `findClosest` loop. -/
def scoresOf (acc : HashTagGroupAccumulator) (tag : HashtagCount) : List ℚ :=
  acc.Groups.map (fun g => distance g.Centroid.Vector tag.Vector)

/-- `findClosest`: index of the best group, and whether the best (clamped)
score strictly exceeds `distanceThreshold`. -/
def HashTagGroupAccumulator.findClosest (acc : HashTagGroupAccumulator)
    (tag : HashtagCount) : Nat × Bool :=
  let r := lastArgMaxAux (scoresOf acc tag) 0 0 0
  (r.1, decide (distanceThreshold < r.2))

namespace clusterFn

/-- `CreateAccumulator`: the empty accumulator. -/
def CreateAccumulator : HashTagGroupAccumulator := ⟨[]⟩

/-- `AddInput`: fold one embedded tag into the accumulator. On a match the
tag is appended to the matched group's members and promoted to centroid
exactly when its count strictly exceeds the current centroid's; otherwise a
new singleton group is appended. -/
def AddInput (acc : HashTagGroupAccumulator) (tag : HashtagCount) :
    HashTagGroupAccumulator :=
  let r := acc.findClosest tag
  if r.2 then
    let g := acc.Groups.getD r.1 dummyGroup
    ⟨acc.Groups.set r.1
      ⟨if g.Centroid.Count < tag.Count then tag else g.Centroid,
       g.Hashtags ++ [tag]⟩⟩
  else
    ⟨acc.Groups ++ [⟨tag, [tag]⟩]⟩

/-- The loop of `MergeAccumulators`: fold the second accumulator's groups
into the first (`findClosest` is evaluated against the current, already
updated first accumulator), collecting unmatched groups in order. -/
def mergeLoop (a : HashTagGroupAccumulator) (pending : List HashTagGroup) :
    List HashTagGroup → HashTagGroupAccumulator × List HashTagGroup
  | [] => (a, pending)
  | h :: t =>
    let r := a.findClosest h.Centroid
    if r.2 then
      mergeLoop ⟨a.Groups.set r.1 ((a.Groups.getD r.1 dummyGroup).Merge h)⟩ pending t
    else
      mergeLoop a (pending ++ [h]) t

/-- `MergeAccumulators`: merge matching groups of `b` into `a`, then append
the unmatched ones. -/
def MergeAccumulators (a b : HashTagGroupAccumulator) : HashTagGroupAccumulator :=
  let r := mergeLoop a [] b.Groups
  ⟨r.1.Groups ++ r.2⟩

/-- `ExtractOutput`: the group list as-is. -/
def ExtractOutput (acc : HashTagGroupAccumulator) : List HashTagGroup :=
  acc.Groups

/-- `Compact`: identity. -/
def Compact (acc : HashTagGroupAccumulator) : HashTagGroupAccumulator := acc

end clusterFn

/-- Accumulators reachable from `CreateAccumulator` by a finite sequence of
`AddInput` and `MergeAccumulators` calls (the combiner lifecycle within one
pipeline run). -/
inductive Reachable : HashTagGroupAccumulator → Prop
  | create : Reachable clusterFn.CreateAccumulator
  | add (acc : HashTagGroupAccumulator) (tag : HashtagCount) :
      Reachable acc → Reachable (clusterFn.AddInput acc tag)
  | merge (a b : HashTagGroupAccumulator) :
      Reachable a → Reachable b → Reachable (clusterFn.MergeAccumulators a b)

namespace mapHashTagCount

/-- `mapHashTagCount.ProcessElement`, with the `Predict` RPC response passed
in as data. The first component records the embedding requests issued for
this element (one request carrying the tag text when the count clears the
threshold, none otherwise); the second is the element's outcome: `ok none`
means no emission, `ok (some h)` means `h` was emitted, `error` means the
element failed (the source does `return err` and
`return errors.New("no predictions")`). -/
def ProcessElement (embedResp : Except String (List (List ℚ)))
    (s : String) (count : Int) :
    List String × Except String (Option HashtagCount) :=
  if count < tagCountThreshold then ([], Except.ok none)
  else
    ([s],
      match embedResp with
      | Except.error e => Except.error e
      | Except.ok preds =>
        if preds.length ≤ 0 then Except.error "no predictions"
        else Except.ok (some ⟨s, count, preds.headD []⟩))

/-- Beam bundle semantics for `mapHashTagCount`: elements are processed in
sequence and an element error fails the whole bundle, so none of the
bundle's outputs are committed. -/
def processBundle (embed : String → Except String (List (List ℚ))) :
    List (String × Int) → Except String (List HashtagCount)
  | [] => Except.ok []
  | (s, c) :: rest =>
    match (ProcessElement (embed s) s c).2 with
    | Except.error e => Except.error e
    | Except.ok none => processBundle embed rest
    | Except.ok (some h) => Except.map (fun l => h :: l) (processBundle embed rest)

end mapHashTagCount

/-- A persisted Topic record; the `timestamp` field is a server-side
sentinel and carries no client-visible data, so it is not modelled. -/
structure Topic where
  tags : List String
  summarized : Bool
  deriving DecidableEq

/-- `minInt` from the source. -/
def minInt (a b : Nat) : Nat := if a < b then a else b

/-- The `slices.SortFunc` call of `summaryHashTagsFn.ProcessElement` with the
source comparator (negative when the left count is larger): the members
ordered by count descending. -/
def sortByCountDesc (l : List HashtagCount) : List HashtagCount :=
  List.insertionSort (fun i j => j.Count ≤ i.Count) l

instance : IsTotal HashtagCount (fun i j => j.Count ≤ i.Count) :=
  ⟨fun a b => le_total b.Count a.Count⟩

instance : IsTrans HashtagCount (fun i j => j.Count ≤ i.Count) :=
  ⟨fun _ _ _ hab hbc => le_trans hbc hab⟩

namespace summaryHashTagsFn

/-- `summaryHashTagsFn.ProcessElement`: sort members by count descending,
take the top `min 30 len` tags, sum their counts; persist one Topic exactly
when that mass clears `documentThreshold`. -/
def ProcessElement (group : HashTagGroup) : Option Topic :=
  let sorted := sortByCountDesc group.Hashtags
  let selected := sorted.take (minInt 30 sorted.length)
  let mass := (selected.map (fun t => t.Count)).sum
  if mass < documentThreshold then none
  else some ⟨selected.map (fun t => t.Hashtag), false⟩

end summaryHashTagsFn

/-! ### Concrete fixtures used to evaluate the model on small inputs -/

/-- A centroid whose embedding is the 1-dimensional vector [1]. -/
def cexCentroidA : HashtagCount := ⟨"groupA", 9, [1]⟩

/-- A second centroid with the same embedding, so that the two groups tie. -/
def cexCentroidB : HashtagCount := ⟨"groupB", 8, [1]⟩

/-- An accumulator with two groups whose centroids score identically. -/
def cexAcc : HashTagGroupAccumulator :=
  ⟨[⟨cexCentroidA, [cexCentroidA]⟩, ⟨cexCentroidB, [cexCentroidB]⟩]⟩

/-- A candidate tag scoring 1 against both centroids (1 > 0.85). -/
def cexTag : HashtagCount := ⟨"tagX", 6, [1]⟩

/-- An embedding collaborator that fails for the tag "B" and succeeds for
every other tag. -/
def embedFailB : String → Except String (List (List ℚ)) :=
  fun s => if s = "B" then Except.error "boom" else Except.ok [[1]]

/-- A two-member group used as a witness input. -/
def wGroup : HashTagGroup := ⟨cexCentroidA, [cexCentroidA, cexTag]⟩

/-- An accumulator holding `wGroup`. -/
def wAccA : HashTagGroupAccumulator := ⟨[wGroup]⟩

/-! ### Helper lemmas -/

theorem getD_mem (l : List α) (d : α) (k : Nat) (hk : k < l.length) :
    l.getD k d ∈ l := by
  rw [List.getD_eq_getElem _ _ hk]
  exact List.getElem_mem hk

theorem getD_set_self (l : List α) (i : Nat) (hi : i < l.length) (v d : α) :
    (l.set i v).getD i d = v := by
  rw [List.getD_eq_getElem _ _ (by simpa using hi)]
  exact List.getElem_set_self _

theorem getD_set_ne (l : List α) (i k : Nat) (h : i ≠ k) (v d : α) :
    (l.set i v).getD k d = l.getD k d := by
  by_cases hk : k < l.length
  · rw [List.getD_eq_getElem _ _ (by simpa using hk), List.getD_eq_getElem _ _ hk]
    exact List.getElem_set_ne h _
  · rw [List.getD_eq_default _ _ (by simpa using Nat.le_of_not_lt hk),
      List.getD_eq_default _ _ (Nat.le_of_not_lt hk)]

theorem mem_set_self (l : List α) (i : Nat) (hi : i < l.length) (v : α) :
    v ∈ l.set i v := by
  have h2 : (l.set i v).getD i v = v := getD_set_self l i hi v v
  have h3 : (l.set i v).getD i v ∈ l.set i v := getD_mem _ _ _ (by simpa using hi)
  rwa [h2] at h3

/-- The second component of the findClosest loop is the fold of `max` over
the scores, seeded with the Go zero value. -/
theorem lastArgMaxAux_snd (ds : List ℚ) :
    ∀ (i t : Nat) (m : ℚ), (lastArgMaxAux ds i t m).2 = ds.foldl max m := by
  induction ds with
  | nil => intro i t m; rfl
  | cons d ds ih =>
    intro i t m
    simp only [lastArgMaxAux, List.foldl_cons]
    by_cases h : m ≤ d
    · rw [if_pos h, ih, max_eq_right h]
    · rw [if_neg h, ih, max_eq_left (le_of_lt (not_le.1 h))]

theorem lt_foldl_max (ds : List ℚ) :
    ∀ (m x : ℚ), x < ds.foldl max m ↔ (x < m ∨ ∃ d ∈ ds, x < d) := by
  induction ds with
  | nil => intro m x; simp
  | cons d ds ih =>
    intro m x
    simp only [List.foldl_cons, ih, lt_max_iff, List.mem_cons]
    constructor
    · rintro ((h | h) | ⟨e, he, hx⟩)
      · exact Or.inl h
      · exact Or.inr ⟨d, Or.inl rfl, h⟩
      · exact Or.inr ⟨e, Or.inr he, hx⟩
    · rintro (h | ⟨e, rfl | he, hx⟩)
      · exact Or.inl (Or.inl h)
      · exact Or.inl (Or.inr hx)
      · exact Or.inr ⟨e, he, hx⟩

/-- Full characterization of the findClosest loop: either no score ever
reaches the running maximum (state returned unchanged), or the result is
the LAST index attaining the overall maximum. -/
theorem lastArgMaxAux_spec (ds : List ℚ) :
    ∀ (i t : Nat) (m : ℚ),
      (lastArgMaxAux ds i t m = (t, m) ∧ ∀ d ∈ ds, d < m) ∨
      (∃ j, j < ds.length ∧
        lastArgMaxAux ds i t m = (i + j, ds.getD j 0) ∧
        m ≤ ds.getD j 0 ∧
        (∀ k, k < ds.length → ds.getD k 0 ≤ ds.getD j 0) ∧
        (∀ k, k < ds.length → j < k → ds.getD k 0 < ds.getD j 0)) := by
  induction ds with
  | nil =>
    intro i t m
    left
    exact ⟨rfl, by intro d hd; cases hd⟩
  | cons d ds ih =>
    intro i t m
    by_cases h : m ≤ d
    · rcases ih (i + 1) i d with ⟨heq, hall⟩ | ⟨j, hj, heq, hle, hmax, hlast⟩
      · right
        refine ⟨0, by simp, ?_, by simpa using h, ?_, ?_⟩
        · simp only [lastArgMaxAux]
          rw [if_pos h, heq]
          simp
        · intro k hk
          cases k with
          | zero => simp
          | succ k =>
            simp only [List.getD_cons_succ, List.getD_cons_zero]
            exact le_of_lt (hall _ (getD_mem _ _ _ (by simpa using hk)))
        · intro k hk hk0
          cases k with
          | zero => omega
          | succ k =>
            simp only [List.getD_cons_succ, List.getD_cons_zero]
            exact hall _ (getD_mem _ _ _ (by simpa using hk))
      · right
        refine ⟨j + 1, by simpa using hj, ?_, le_trans h hle, ?_, ?_⟩
        · simp only [lastArgMaxAux]
          rw [if_pos h, heq]
          simp only [List.getD_cons_succ, Prod.mk.injEq]
          exact ⟨by omega, trivial⟩
        · intro k hk
          cases k with
          | zero => simpa using hle
          | succ k => simpa using hmax k (by simpa using hk)
        · intro k hk hjk
          cases k with
          | zero => omega
          | succ k => simpa using hlast k (by simpa using hk) (by omega)
    · rcases ih (i + 1) t m with ⟨heq, hall⟩ | ⟨j, hj, heq, hle, hmax, hlast⟩
      · left
        constructor
        · simp only [lastArgMaxAux]
          rw [if_neg h, heq]
        · intro e he
          rcases List.mem_cons.1 he with rfl | he
          · exact not_le.1 h
          · exact hall _ he
      · right
        refine ⟨j + 1, by simpa using hj, ?_, hle, ?_, ?_⟩
        · simp only [lastArgMaxAux]
          rw [if_neg h, heq]
          simp only [List.getD_cons_succ, Prod.mk.injEq]
          exact ⟨by omega, trivial⟩
        · intro k hk
          cases k with
          | zero =>
            simp only [List.getD_cons_succ, List.getD_cons_zero]
            exact le_trans (le_of_lt (not_le.1 h)) hle
          | succ k => simpa using hmax k (by simpa using hk)
        · intro k hk hjk
          cases k with
          | zero => omega
          | succ k => simpa using hlast k (by simpa using hk) (by omega)

/-- A match is reported exactly when some group's centroid scores strictly
above the threshold (the clamp at the Go zero value 0 cannot reach the
threshold, which is positive). -/
theorem findClosest_snd_iff (acc : HashTagGroupAccumulator) (tag : HashtagCount) :
    (acc.findClosest tag).2 = true ↔
      ∃ g ∈ acc.Groups, distanceThreshold < distance g.Centroid.Vector tag.Vector := by
  simp only [HashTagGroupAccumulator.findClosest, decide_eq_true_eq]
  rw [lastArgMaxAux_snd, lt_foldl_max]
  constructor
  · rintro (h | ⟨d, hd, hx⟩)
    · exact absurd h (by norm_num [distanceThreshold])
    · rcases List.mem_map.1 hd with ⟨g, hg, rfl⟩
      exact ⟨g, hg, hx⟩
  · rintro ⟨g, hg, hx⟩
    exact Or.inr ⟨_, List.mem_map.2 ⟨g, hg, rfl⟩, hx⟩

/-- When a match is reported, the returned index is a valid group index. -/
theorem findClosest_idx_lt (acc : HashTagGroupAccumulator) (tag : HashtagCount) :
    (acc.findClosest tag).2 = true → (acc.findClosest tag).1 < acc.Groups.length := by
  intro h
  simp only [HashTagGroupAccumulator.findClosest] at h ⊢
  rcases lastArgMaxAux_spec (scoresOf acc tag) 0 0 0 with ⟨heq, _⟩ | ⟨j, hj, heq, _, _, _⟩
  · rw [heq] at h
    simp only [decide_eq_true_eq] at h
    exact absurd h (by norm_num [distanceThreshold])
  · rw [heq]
    simpa [scoresOf] using hj

/-- Both operands' member lists survive intact inside a pairwise `Merge`. -/
theorem Merge_sublist_left (g h : HashTagGroup) :
    List.Sublist g.Hashtags (g.Merge h).Hashtags := by
  unfold HashTagGroup.Merge
  split
  · exact List.sublist_append_left _ _
  · exact List.sublist_append_right _ _

theorem Merge_sublist_right (g h : HashTagGroup) :
    List.Sublist h.Hashtags (g.Merge h).Hashtags := by
  unfold HashTagGroup.Merge
  split
  · exact List.sublist_append_right _ _
  · exact List.sublist_append_left _ _

/-- `Merge` preserves the centroid-membership invariant. -/
theorem Merge_centroid_mem (g h : HashTagGroup)
    (hg : g.Centroid ∈ g.Hashtags) (hh : h.Centroid ∈ h.Hashtags) :
    (g.Merge h).Centroid ∈ (g.Merge h).Hashtags := by
  unfold HashTagGroup.Merge
  split
  · exact List.mem_append_left _ hg
  · exact List.mem_append_left _ hh

/-- Replacing one slot of a group list with a superset of that slot keeps
every old group's member list inside some current group. -/
theorem set_grow (l : List HashTagGroup) (i : Nat) (v : HashTagGroup)
    (hv : List.Sublist (l.getD i dummyGroup).Hashtags v.Hashtags) :
    ∀ g ∈ l, ∃ g₂ ∈ l.set i v, List.Sublist g.Hashtags g₂.Hashtags := by
  intro g hg
  by_cases hi : i < l.length
  · rcases List.mem_iff_getElem.1 hg with ⟨k, hk, hgk⟩
    by_cases hki : k = i
    · refine ⟨v, mem_set_self l i hi v, ?_⟩
      subst hki
      rw [List.getD_eq_getElem _ _ hk] at hv
      rw [← hgk]
      exact hv
    · refine ⟨g, ?_, List.Sublist.refl _⟩
      have h1 : (l.set i v).getD k dummyGroup = l.getD k dummyGroup :=
        getD_set_ne l i k (fun he => hki he.symm) v dummyGroup
      have h2 : l.getD k dummyGroup = g := by
        rw [List.getD_eq_getElem _ _ hk]; exact hgk
      rw [← h2, ← h1]
      exact getD_mem _ _ _ (by simpa using hk)
  · rw [List.set_eq_of_length_le (Nat.le_of_not_lt hi)]
    exact ⟨g, hg, List.Sublist.refl _⟩

theorem mergeLoop_cons_pos (a : HashTagGroupAccumulator) (p : List HashTagGroup)
    (h : HashTagGroup) (t : List HashTagGroup)
    (hr : (a.findClosest h.Centroid).2 = true) :
    clusterFn.mergeLoop a p (h :: t) =
      clusterFn.mergeLoop
        ⟨a.Groups.set (a.findClosest h.Centroid).1
          ((a.Groups.getD (a.findClosest h.Centroid).1 dummyGroup).Merge h)⟩ p t := by
  simp [clusterFn.mergeLoop, hr]

theorem mergeLoop_cons_neg (a : HashTagGroupAccumulator) (p : List HashTagGroup)
    (h : HashTagGroup) (t : List HashTagGroup)
    (hr : (a.findClosest h.Centroid).2 = false) :
    clusterFn.mergeLoop a p (h :: t) = clusterFn.mergeLoop a (p ++ [h]) t := by
  simp [clusterFn.mergeLoop, hr]

/-- Groups of the first accumulator never lose members across the merge
loop: each lands (possibly fattened) in the final first component. -/
theorem mergeLoop_fst_mono (bs : List HashTagGroup) :
    ∀ (a : HashTagGroupAccumulator) (p : List HashTagGroup) (g : HashTagGroup),
      g ∈ a.Groups →
      ∃ g₂ ∈ (clusterFn.mergeLoop a p bs).1.Groups,
        List.Sublist g.Hashtags g₂.Hashtags := by
  induction bs with
  | nil => intro a p g hg; exact ⟨g, hg, List.Sublist.refl _⟩
  | cons h t ih =>
    intro a p g hg
    cases hr : (a.findClosest h.Centroid).2 with
    | true =>
      rw [mergeLoop_cons_pos a p h t hr]
      obtain ⟨g₂, hg₂, hsub⟩ :=
        set_grow a.Groups (a.findClosest h.Centroid).1
          ((a.Groups.getD (a.findClosest h.Centroid).1 dummyGroup).Merge h)
          (Merge_sublist_left _ _) g hg
      obtain ⟨g₃, hg₃, hsub₂⟩ := ih _ p g₂ hg₂
      exact ⟨g₃, hg₃, hsub.trans hsub₂⟩
    | false =>
      rw [mergeLoop_cons_neg a p h t hr]
      exact ih a (p ++ [h]) g hg

/-- Pending groups are only ever appended to. -/
theorem mergeLoop_pending_mem (bs : List HashTagGroup) :
    ∀ (a : HashTagGroupAccumulator) (p : List HashTagGroup) (q : HashTagGroup),
      q ∈ p → q ∈ (clusterFn.mergeLoop a p bs).2 := by
  induction bs with
  | nil => intro a p q hq; exact hq
  | cons h t ih =>
    intro a p q hq
    cases hr : (a.findClosest h.Centroid).2 with
    | true =>
      rw [mergeLoop_cons_pos a p h t hr]
      exact ih _ p q hq
    | false =>
      rw [mergeLoop_cons_neg a p h t hr]
      exact ih a (p ++ [h]) q (List.mem_append_left _ hq)

/-- Each group of the second accumulator either ends up fattened inside the
first component or passes through unchanged to the pending list. -/
theorem mergeLoop_bgroups (bs : List HashTagGroup) :
    ∀ (a : HashTagGroupAccumulator) (p : List HashTagGroup) (hgrp : HashTagGroup),
      hgrp ∈ bs →
      (∃ g₂ ∈ (clusterFn.mergeLoop a p bs).1.Groups,
        List.Sublist hgrp.Hashtags g₂.Hashtags) ∨
      hgrp ∈ (clusterFn.mergeLoop a p bs).2 := by
  induction bs with
  | nil => intro a p hgrp hmem; cases hmem
  | cons hd t ih =>
    intro a p hgrp hmem
    rcases List.mem_cons.1 hmem with rfl | hmem
    · cases hr : (a.findClosest hgrp.Centroid).2 with
      | true =>
        rw [mergeLoop_cons_pos a p hgrp t hr]
        left
        have hi := findClosest_idx_lt a hgrp.Centroid hr
        have hmem₂ :
            (a.Groups.getD (a.findClosest hgrp.Centroid).1 dummyGroup).Merge hgrp ∈
              a.Groups.set (a.findClosest hgrp.Centroid).1
                ((a.Groups.getD (a.findClosest hgrp.Centroid).1 dummyGroup).Merge hgrp) :=
          mem_set_self _ _ hi _
        obtain ⟨g₃, hg₃, hsub⟩ := mergeLoop_fst_mono t _ p _ hmem₂
        exact ⟨g₃, hg₃, (Merge_sublist_right _ _).trans hsub⟩
      | false =>
        rw [mergeLoop_cons_neg a p hgrp t hr]
        right
        exact mergeLoop_pending_mem t a (p ++ [hgrp]) hgrp
          (List.mem_append_right _ (List.mem_singleton_self _))
    · cases hr : (a.findClosest hd.Centroid).2 with
      | true =>
        rw [mergeLoop_cons_pos a p hd t hr]
        exact ih _ p hgrp hmem
      | false =>
        rw [mergeLoop_cons_neg a p hd t hr]
        exact ih a (p ++ [hd]) hgrp hmem

/-- The merge loop preserves the centroid-membership invariant of every
group it holds, in both components. -/
theorem mergeLoop_inv (bs : List HashTagGroup) :
    ∀ (a : HashTagGroupAccumulator) (p : List HashTagGroup),
      (∀ g ∈ a.Groups, g.Centroid ∈ g.Hashtags) →
      (∀ g ∈ p, g.Centroid ∈ g.Hashtags) →
      (∀ g ∈ bs, g.Centroid ∈ g.Hashtags) →
      (∀ g ∈ (clusterFn.mergeLoop a p bs).1.Groups, g.Centroid ∈ g.Hashtags) ∧
      (∀ g ∈ (clusterFn.mergeLoop a p bs).2, g.Centroid ∈ g.Hashtags) := by
  induction bs with
  | nil => intro a p ha hp _; exact ⟨ha, hp⟩
  | cons hd t ih =>
    intro a p ha hp hbs
    cases hr : (a.findClosest hd.Centroid).2 with
    | true =>
      rw [mergeLoop_cons_pos a p hd t hr]
      refine ih _ p ?_ hp (fun g hg => hbs g (List.mem_cons_of_mem _ hg))
      intro g hg
      rcases List.mem_or_eq_of_mem_set hg with hg₂ | rfl
      · exact ha g hg₂
      · have hi := findClosest_idx_lt a hd.Centroid hr
        exact Merge_centroid_mem _ _
          (ha _ (getD_mem _ _ _ hi)) (hbs hd (List.mem_cons_self _ _))
    | false =>
      rw [mergeLoop_cons_neg a p hd t hr]
      refine ih a (p ++ [hd]) ha ?_ (fun g hg => hbs g (List.mem_cons_of_mem _ hg))
      intro g hg
      rcases List.mem_append.1 hg with hg₂ | hg₂
      · exact hp g hg₂
      · rw [List.mem_singleton.1 hg₂]
        exact hbs hd (List.mem_cons_self _ _)

theorem MergeAccumulators_eq (a b : HashTagGroupAccumulator) :
    clusterFn.MergeAccumulators a b =
      ⟨(clusterFn.mergeLoop a [] b.Groups).1.Groups ++
        (clusterFn.mergeLoop a [] b.Groups).2⟩ := rfl

theorem MergeAccumulators_mono_left (a b : HashTagGroupAccumulator) :
    ∀ g ∈ a.Groups, ∃ g₂ ∈ (clusterFn.MergeAccumulators a b).Groups,
      List.Sublist g.Hashtags g₂.Hashtags := by
  intro g hg
  obtain ⟨g₂, hg₂, hsub⟩ := mergeLoop_fst_mono b.Groups a [] g hg
  exact ⟨g₂, List.mem_append_left _ hg₂, hsub⟩

theorem MergeAccumulators_mono_right (a b : HashTagGroupAccumulator) :
    ∀ g ∈ b.Groups, ∃ g₂ ∈ (clusterFn.MergeAccumulators a b).Groups,
      List.Sublist g.Hashtags g₂.Hashtags := by
  intro g hg
  rcases mergeLoop_bgroups b.Groups a [] g hg with ⟨g₂, hg₂, hsub⟩ | hmem
  · exact ⟨g₂, List.mem_append_left _ hg₂, hsub⟩
  · exact ⟨g, List.mem_append_right _ hmem, List.Sublist.refl _⟩

theorem MergeAccumulators_inv (a b : HashTagGroupAccumulator)
    (ha : ∀ g ∈ a.Groups, g.Centroid ∈ g.Hashtags)
    (hb : ∀ g ∈ b.Groups, g.Centroid ∈ g.Hashtags) :
    ∀ g ∈ (clusterFn.MergeAccumulators a b).Groups, g.Centroid ∈ g.Hashtags := by
  intro g hg
  obtain ⟨h1, h2⟩ := mergeLoop_inv b.Groups a [] ha (by intro g hg; cases hg) hb
  rcases List.mem_append.1 hg with hg₂ | hg₂
  · exact h1 g hg₂
  · exact h2 g hg₂

theorem AddInput_pos (acc : HashTagGroupAccumulator) (tag : HashtagCount)
    (hr : (acc.findClosest tag).2 = true) :
    clusterFn.AddInput acc tag =
      ⟨acc.Groups.set (acc.findClosest tag).1
        ⟨if (acc.Groups.getD (acc.findClosest tag).1 dummyGroup).Centroid.Count < tag.Count
            then tag
            else (acc.Groups.getD (acc.findClosest tag).1 dummyGroup).Centroid,
          (acc.Groups.getD (acc.findClosest tag).1 dummyGroup).Hashtags ++ [tag]⟩⟩ := by
  simp [clusterFn.AddInput, hr]

theorem AddInput_neg (acc : HashTagGroupAccumulator) (tag : HashtagCount)
    (hr : (acc.findClosest tag).2 = false) :
    clusterFn.AddInput acc tag = ⟨acc.Groups ++ [⟨tag, [tag]⟩]⟩ := by
  simp [clusterFn.AddInput, hr]

theorem AddInput_mono (acc : HashTagGroupAccumulator) (tag : HashtagCount) :
    ∀ g ∈ acc.Groups, ∃ g₂ ∈ (clusterFn.AddInput acc tag).Groups,
      List.Sublist g.Hashtags g₂.Hashtags := by
  intro g hg
  cases hr : (acc.findClosest tag).2 with
  | true =>
    rw [AddInput_pos acc tag hr]
    exact set_grow _ _ _ (List.sublist_append_left _ _) g hg
  | false =>
    rw [AddInput_neg acc tag hr]
    exact ⟨g, List.mem_append_left _ hg, List.Sublist.refl _⟩

theorem AddInput_inv (acc : HashTagGroupAccumulator) (tag : HashtagCount)
    (ha : ∀ g ∈ acc.Groups, g.Centroid ∈ g.Hashtags) :
    ∀ g ∈ (clusterFn.AddInput acc tag).Groups, g.Centroid ∈ g.Hashtags := by
  intro g hg
  cases hr : (acc.findClosest tag).2 with
  | true =>
    rw [AddInput_pos acc tag hr] at hg
    rcases List.mem_or_eq_of_mem_set hg with hg₂ | rfl
    · exact ha g hg₂
    · have hi := findClosest_idx_lt acc tag hr
      by_cases hc :
          (acc.Groups.getD (acc.findClosest tag).1 dummyGroup).Centroid.Count < tag.Count
      · simp only [hc, if_pos]
        exact List.mem_append_right _ (List.mem_singleton_self _)
      · simp only [hc, if_neg, if_false]
        exact List.mem_append_left _ (ha _ (getD_mem _ _ _ hi))
  | false =>
    rw [AddInput_neg acc tag hr] at hg
    rcases List.mem_append.1 hg with hg₂ | hg₂
    · exact ha g hg₂
    · rw [List.mem_singleton.1 hg₂]
      exact List.mem_singleton_self _

/-- `findClosest` against an empty accumulator reports no match. -/
theorem findClosest_nil (tag : HashtagCount) :
    (HashTagGroupAccumulator.mk []).findClosest tag = (0, false) := by
  simp only [HashTagGroupAccumulator.findClosest, scoresOf, List.map_nil, lastArgMaxAux,
    Prod.mk.injEq, decide_eq_false_iff_not, not_lt, distanceThreshold]
  norm_num

/-- The merge loop started from an empty first accumulator matches nothing:
every incoming group passes through to pending, in order. -/
theorem mergeLoop_empty_fst (l : List HashTagGroup) :
    ∀ p : List HashTagGroup,
      clusterFn.mergeLoop ⟨[]⟩ p l = (⟨[]⟩, p ++ l) := by
  induction l with
  | nil => intro p; simp [clusterFn.mergeLoop]
  | cons h t ih =>
    intro p
    rw [mergeLoop_cons_neg _ _ _ _ (by rw [findClosest_nil]), ih (p ++ [h])]
    simp

/-! ### Claim theorems -/

/-- C6: `findClosest` reports a match (second component true) if and only if
some group's similarity score — equivalently the maximum score — is
strictly greater than `distanceThreshold` (0.85); a score exactly equal to
the threshold does not count as exceeding it. -/
theorem C6_findClosest_strict_threshold :
    ∀ (acc : HashTagGroupAccumulator) (tag : HashtagCount),
      (acc.findClosest tag).2 = true ↔
        ∃ g ∈ acc.Groups,
          distanceThreshold < distance g.Centroid.Vector tag.Vector :=
  fun acc tag => findClosest_snd_iff acc tag

/-- C10: the pairwise `Merge` keeps the first group's centroid exactly when
its count strictly exceeds the other's (so an equal count keeps the second,
incoming group's centroid), and the resulting member list is the
concatenation of the two member lists (winner's members first). -/
theorem C10_Merge_centroid_and_members :
    ∀ g h : HashTagGroup,
      (g.Merge h).Centroid =
        (if h.Centroid.Count < g.Centroid.Count then g.Centroid else h.Centroid) ∧
      (g.Merge h).Hashtags =
        (if h.Centroid.Count < g.Centroid.Count then g.Hashtags ++ h.Hashtags
          else h.Hashtags ++ g.Hashtags) ∧
      List.Perm (g.Merge h).Hashtags (g.Hashtags ++ h.Hashtags) := by
  intro g h
  unfold HashTagGroup.Merge
  by_cases hc : h.Centroid.Count < g.Centroid.Count
  · simp only [if_pos hc]
    exact ⟨trivial, trivial, List.Perm.refl _⟩
  · simp only [if_neg hc]
    exact ⟨trivial, trivial, List.perm_append_comm⟩

/-- C7: merging with a freshly created empty accumulator, in either
argument order, returns the other accumulator exactly (hence its group
list, as a set of member sets, is unchanged). -/
theorem C7_merge_empty_identity :
    ∀ a : HashTagGroupAccumulator,
      clusterFn.MergeAccumulators a clusterFn.CreateAccumulator = a ∧
      clusterFn.MergeAccumulators clusterFn.CreateAccumulator a = a := by
  intro a
  constructor
  · cases a with
    | mk gs => simp [clusterFn.MergeAccumulators, clusterFn.mergeLoop, clusterFn.CreateAccumulator]
  · cases a with
    | mk gs =>
      simp [clusterFn.MergeAccumulators, clusterFn.CreateAccumulator, mergeLoop_empty_fst]

/-- C8: in `mapHashTagCount.ProcessElement` a tag proceeds to the embedding
call exactly when its count reaches `tagCountThreshold` (5); below the
threshold zero embedding requests are issued and the element completes with
no emission. -/
theorem C8_threshold_gates_embedding :
    ∀ (resp : Except String (List (List ℚ))) (s : String) (count : Int),
      ((mapHashTagCount.ProcessElement resp s count).1 = [s] ↔
        tagCountThreshold ≤ count) ∧
      ((mapHashTagCount.ProcessElement resp s count).1 = [] ∧
          (mapHashTagCount.ProcessElement resp s count).2 = Except.ok none ↔
        count < tagCountThreshold) := by
  intro resp s count
  by_cases h : count < tagCountThreshold
  · constructor
    · simp [mapHashTagCount.ProcessElement, h, not_le.2 h]
    · simp [mapHashTagCount.ProcessElement, h]
  · constructor
    · simp [mapHashTagCount.ProcessElement, h, not_lt.1 h]
    · simp [mapHashTagCount.ProcessElement, h]

/-- C9: the persister sorts a group's members by count descending (the
sorted list is a descending reordering of the members), takes the first
min(30, length) of them, sums their counts as the document mass, and
produces exactly one Topic record — tags the selected strings, summarized
false — precisely when that mass reaches `documentThreshold` (10), and
nothing otherwise. -/
theorem C9_persister_mass_threshold :
    ∀ group : HashTagGroup,
      List.Sorted (fun i j => j.Count ≤ i.Count) (sortByCountDesc group.Hashtags) ∧
      List.Perm (sortByCountDesc group.Hashtags) group.Hashtags ∧
      summaryHashTagsFn.ProcessElement group =
        (if documentThreshold ≤
            (((sortByCountDesc group.Hashtags).take
              (minInt 30 (sortByCountDesc group.Hashtags).length)).map
                (fun t => t.Count)).sum
          then some
            ⟨((sortByCountDesc group.Hashtags).take
              (minInt 30 (sortByCountDesc group.Hashtags).length)).map
                (fun t => t.Hashtag), false⟩
          else none) := by
  intro group
  refine ⟨List.sorted_insertionSort _ _, List.perm_insertionSort _ _, ?_⟩
  simp only [summaryHashTagsFn.ProcessElement]
  split_ifs <;> first | rfl | omega

/-- C1 counterexample: when the embedding call fails for the tag "B",
`ProcessElement` returns the error (it does NOT skip with `ok none`), and
under bundle semantics the sibling tags "A" and "C" of the same bundle are
lost with it: the stage aborts instead of continuing. -/
theorem C1_counterexample :
    (mapHashTagCount.ProcessElement (Except.error "boom") "B" 6).2 =
      Except.error "boom" ∧
    mapHashTagCount.processBundle embedFailB [("A", 6), ("B", 6), ("C", 6)] =
      Except.error "boom" := by
  constructor
  · rfl
  · rfl

/-- C1 amended: an embedding failure (transport error or empty prediction
list) for a tag past the count threshold is not skipped: `ProcessElement`
propagates an error, so the whole bundle containing that tag fails and none
of its tags are emitted; the run aborts rather than continuing. -/
theorem C1_amended_embed_failure_propagates
    (embed : String → Except String (List (List ℚ)))
    (s : String) (count : Int) (rest : List (String × Int))
    (hc : tagCountThreshold ≤ count)
    (hfail : (∃ e, embed s = Except.error e) ∨ embed s = Except.ok []) :
    ∃ msg, (mapHashTagCount.ProcessElement (embed s) s count).2 = Except.error msg ∧
      mapHashTagCount.processBundle embed ((s, count) :: rest) = Except.error msg := by
  have hnot : ¬ count < tagCountThreshold := not_lt.2 hc
  rcases hfail with ⟨e, he⟩ | he
  · refine ⟨e, ?_, ?_⟩
    · simp [mapHashTagCount.ProcessElement, hnot, he]
    · simp [mapHashTagCount.processBundle, mapHashTagCount.ProcessElement, hnot, he]
  · refine ⟨"no predictions", ?_, ?_⟩
    · simp [mapHashTagCount.ProcessElement, hnot, he]
    · simp [mapHashTagCount.processBundle, mapHashTagCount.ProcessElement, hnot, he]

/-- C1 witness: the amended statement evaluated on a concrete failing
collaborator and bundle. -/
theorem C1_witness :
    tagCountThreshold ≤ (6 : Int) ∧
    ∃ msg, (mapHashTagCount.ProcessElement (embedFailB "B") "B" 6).2 = Except.error msg ∧
      mapHashTagCount.processBundle embedFailB [("B", 6), ("C", 6)] = Except.error msg :=
  ⟨by decide,
    C1_amended_embed_failure_propagates embedFailB "B" 6 [("C", 6)] (by decide)
      (Or.inl ⟨"boom", rfl⟩)⟩

/-- The two fixture groups score [1, 1] against the fixture tag. -/
theorem scoresOf_cex : scoresOf cexAcc cexTag = [1, 1] := by
  norm_num [scoresOf, cexAcc, cexTag, cexCentroidA, cexCentroidB, distance]

/-- C2 counterexample: two groups tie at score 1 (strictly above the
threshold); the claim predicts the first-iterated group, index 0, but the
code (whose loop updates on `>=`) returns index 1. -/
theorem C2_counterexample :
    distance cexCentroidA.Vector cexTag.Vector =
      distance cexCentroidB.Vector cexTag.Vector ∧
    cexAcc.findClosest cexTag = (1, true) := by
  constructor
  · simp [cexCentroidA, cexCentroidB, cexTag]
  · simp only [HashTagGroupAccumulator.findClosest, scoresOf_cex]
    norm_num [lastArgMaxAux, distanceThreshold]

/-- C2 amended: whenever a group attains the maximum similarity score and
that maximum is nonnegative (as any above-threshold match is), `findClosest`
returns a valid index attaining the maximum such that every strictly later
index scores strictly lower — ties therefore resolve to the group with the
HIGHEST index among those attaining the maximum (the last iterated), not
the lowest. -/
theorem C2_amended_tie_breaks_last (acc : HashTagGroupAccumulator)
    (tag : HashtagCount) (j : Nat) (hj : j < (scoresOf acc tag).length)
    (_hmax : ∀ k, k < (scoresOf acc tag).length →
      (scoresOf acc tag).getD k 0 ≤ (scoresOf acc tag).getD j 0)
    (hnn : 0 ≤ (scoresOf acc tag).getD j 0) :
    (acc.findClosest tag).1 < (scoresOf acc tag).length ∧
    (scoresOf acc tag).getD j 0 ≤
      (scoresOf acc tag).getD (acc.findClosest tag).1 0 ∧
    (∀ k, k < (scoresOf acc tag).length → (acc.findClosest tag).1 < k →
      (scoresOf acc tag).getD k 0 <
        (scoresOf acc tag).getD (acc.findClosest tag).1 0) := by
  rcases lastArgMaxAux_spec (scoresOf acc tag) 0 0 0 with
    ⟨_, hall⟩ | ⟨j₂, hj₂, heq, _, hmax₂, hlast₂⟩
  · exact absurd hnn (not_le.2 (hall _ (getD_mem _ 0 j hj)))
  · have hfst : (acc.findClosest tag).1 = j₂ := by
      simp only [HashTagGroupAccumulator.findClosest]
      rw [heq]
      simp
    rw [hfst]
    exact ⟨hj₂, hmax₂ j hj, hlast₂⟩

/-- C2 witness: the amended statement evaluated at the tied concrete
accumulator. -/
theorem C2_witness :
    (cexAcc.findClosest cexTag).1 < (scoresOf cexAcc cexTag).length ∧
    (scoresOf cexAcc cexTag).getD 0 0 ≤
      (scoresOf cexAcc cexTag).getD (cexAcc.findClosest cexTag).1 0 ∧
    (∀ k, k < (scoresOf cexAcc cexTag).length → (cexAcc.findClosest cexTag).1 < k →
      (scoresOf cexAcc cexTag).getD k 0 <
        (scoresOf cexAcc cexTag).getD (cexAcc.findClosest cexTag).1 0) :=
  C2_amended_tie_breaks_last cexAcc cexTag 0
    (by simp [scoresOf_cex])
    (by
      simp only [scoresOf_cex]
      intro k hk
      norm_num at hk
      interval_cases k <;> simp)
    (by simp [scoresOf_cex])

/-- C3: if two tags sit in one group of an accumulator, then after merging
with any other accumulator — in either argument order — and extracting the
output, they are still together in a single group: a merge never
distributes one group's members across different output groups. -/
theorem C3_merge_never_splits (a b : HashTagGroupAccumulator)
    (x y : HashtagCount) (g : HashTagGroup)
    (hg : g ∈ a.Groups) (hx : x ∈ g.Hashtags) (hy : y ∈ g.Hashtags) :
    (∃ g₁ ∈ clusterFn.ExtractOutput (clusterFn.MergeAccumulators a b),
      x ∈ g₁.Hashtags ∧ y ∈ g₁.Hashtags) ∧
    (∃ g₂ ∈ clusterFn.ExtractOutput (clusterFn.MergeAccumulators b a),
      x ∈ g₂.Hashtags ∧ y ∈ g₂.Hashtags) := by
  constructor
  · obtain ⟨g₁, hg₁, hsub⟩ := MergeAccumulators_mono_left a b g hg
    exact ⟨g₁, hg₁, hsub.subset hx, hsub.subset hy⟩
  · obtain ⟨g₂, hg₂, hsub⟩ := MergeAccumulators_mono_right b a g hg
    exact ⟨g₂, hg₂, hsub.subset hx, hsub.subset hy⟩

/-- C3 witness: the theorem applied to a concrete accumulator whose one
group holds two tags, merged with the empty accumulator in both orders. -/
theorem C3_witness :
    (∃ g₁ ∈ clusterFn.ExtractOutput
        (clusterFn.MergeAccumulators wAccA clusterFn.CreateAccumulator),
      cexCentroidA ∈ g₁.Hashtags ∧ cexTag ∈ g₁.Hashtags) ∧
    (∃ g₂ ∈ clusterFn.ExtractOutput
        (clusterFn.MergeAccumulators clusterFn.CreateAccumulator wAccA),
      cexCentroidA ∈ g₂.Hashtags ∧ cexTag ∈ g₂.Hashtags) :=
  C3_merge_never_splits wAccA clusterFn.CreateAccumulator cexCentroidA cexTag wGroup
    (List.mem_singleton_self _) (by simp [wGroup]) (by simp [wGroup])

/-- C4: in every accumulator reachable from `CreateAccumulator` by
`AddInput` and `MergeAccumulators` calls, each group's centroid is one of
its members; moreover the operations only grow member lists — each input
group's member list persists as a sublist (nothing removed, nothing
replaced, order kept) of some output group's member list. -/
theorem C4_centroid_member_and_append_only :
    (∀ acc, Reachable acc → ∀ g ∈ acc.Groups, g.Centroid ∈ g.Hashtags) ∧
    (∀ (acc : HashTagGroupAccumulator) (tag : HashtagCount), ∀ g ∈ acc.Groups,
      ∃ g₂ ∈ (clusterFn.AddInput acc tag).Groups,
        List.Sublist g.Hashtags g₂.Hashtags) ∧
    (∀ a b : HashTagGroupAccumulator, ∀ g ∈ a.Groups,
      ∃ g₂ ∈ (clusterFn.MergeAccumulators a b).Groups,
        List.Sublist g.Hashtags g₂.Hashtags) ∧
    (∀ a b : HashTagGroupAccumulator, ∀ g ∈ b.Groups,
      ∃ g₂ ∈ (clusterFn.MergeAccumulators a b).Groups,
        List.Sublist g.Hashtags g₂.Hashtags) := by
  refine ⟨?_, fun acc tag => AddInput_mono acc tag,
    fun a b => MergeAccumulators_mono_left a b,
    fun a b => MergeAccumulators_mono_right a b⟩
  intro acc h
  induction h with
  | create => intro g hg; cases hg
  | add acc tag _ ih => exact AddInput_inv acc tag ih
  | merge a b _ _ iha ihb => exact MergeAccumulators_inv a b iha ihb

/-- C4 witness: the invariant read off a concrete reachable accumulator and
the growth statement at a concrete group. -/
theorem C4_witness :
    (∀ g ∈ (clusterFn.AddInput clusterFn.CreateAccumulator cexCentroidA).Groups,
      g.Centroid ∈ g.Hashtags) ∧
    (∃ g₂ ∈ (clusterFn.MergeAccumulators wAccA clusterFn.CreateAccumulator).Groups,
      List.Sublist wGroup.Hashtags g₂.Hashtags) :=
  ⟨C4_centroid_member_and_append_only.1 _ (Reachable.add _ _ Reachable.create),
    C4_centroid_member_and_append_only.2.2.1 wAccA clusterFn.CreateAccumulator wGroup
      (List.mem_singleton_self _)⟩

/-- C5: on a reported match, `AddInput` appends the candidate to exactly the
matched group's member list, replaces that group's centroid with the
candidate precisely when the candidate's count strictly exceeds the current
centroid's, and leaves every other group untouched; without a match it
appends a brand-new singleton group with the candidate as its own centroid. -/
theorem C5_AddInput_effect (acc : HashTagGroupAccumulator) (tag : HashtagCount) :
    ((acc.findClosest tag).2 = true →
      (clusterFn.AddInput acc tag).Groups.length = acc.Groups.length ∧
      ((clusterFn.AddInput acc tag).Groups.getD (acc.findClosest tag).1 dummyGroup).Hashtags =
        (acc.Groups.getD (acc.findClosest tag).1 dummyGroup).Hashtags ++ [tag] ∧
      ((clusterFn.AddInput acc tag).Groups.getD (acc.findClosest tag).1 dummyGroup).Centroid =
        (if (acc.Groups.getD (acc.findClosest tag).1 dummyGroup).Centroid.Count < tag.Count
          then tag
          else (acc.Groups.getD (acc.findClosest tag).1 dummyGroup).Centroid) ∧
      (∀ k, k ≠ (acc.findClosest tag).1 →
        (clusterFn.AddInput acc tag).Groups.getD k dummyGroup =
          acc.Groups.getD k dummyGroup)) ∧
    ((acc.findClosest tag).2 = false →
      (clusterFn.AddInput acc tag).Groups = acc.Groups ++ [⟨tag, [tag]⟩]) := by
  constructor
  · intro hr
    rw [AddInput_pos acc tag hr]
    have hi := findClosest_idx_lt acc tag hr
    refine ⟨List.length_set _ _ _, ?_, ?_, ?_⟩
    · rw [getD_set_self _ _ hi]
    · rw [getD_set_self _ _ hi]
    · intro k hk
      exact getD_set_ne _ _ _ (fun he => hk he.symm) _ _
  · intro hr
    rw [AddInput_neg acc tag hr]

/-- C5 witness: the match branch evaluated on the concrete tied accumulator
(where `findClosest` reports a match at index 1). -/
theorem C5_witness :
    (cexAcc.findClosest cexTag).2 = true ∧
    (clusterFn.AddInput cexAcc cexTag).Groups.length = cexAcc.Groups.length := by
  have hfc : cexAcc.findClosest cexTag = (1, true) := by
    simp only [HashTagGroupAccumulator.findClosest, scoresOf_cex]
    norm_num [lastArgMaxAux, distanceThreshold]
  exact ⟨by rw [hfc], ((C5_AddInput_effect cexAcc cexTag).1 (by rw [hfc])).1⟩

end HashtagPipeline
